import Mathlib

/-!
Shallow embedding of the executable-blocking core of the repository
source yandex_disabler.py: the IFEO registry blocker (RegistryBlocker),
its name validator, the batch operations and status queries, and the
process classifier of ProcessKiller.  Registry state is modelled
explicitly and threaded through each operation.  Windows error behaviour
as seen by the source is reflected deterministically: writes to
HKEY_LOCAL_MACHINE raise PermissionError when the process is not
elevated or the key denies access, opening or deleting an absent key or
value raises FileNotFoundError, and deleting a key that still has
subkeys fails with an OSError that the source swallows.
-/

/-- Python regex word character as used by the pattern of
RegistryBlocker._validate_exe_name.  Python 3 applies a str pattern with
Unicode semantics: backslash-w matches Unicode alphanumerics plus the
underscore.  This model is exact on ASCII code points and on the basic
Cyrillic letters U+0410 to U+044F, which are all Unicode letters; other
non-ASCII code points are not modelled and count as non-word characters
here, so every theorem about the validator quantifies over ASCII names
only. -/
def isWordChar (c : Char) : Bool :=
  c.isAlphanum || c == '_' || (decide (0x410 ≤ c.toNat) && decide (c.toNat ≤ 0x44F))

/-- One character of the bracket class of the source pattern: a word
character, a hyphen, or a dot. -/
def classChar (c : Char) : Bool :=
  isWordChar c || c == '-' || c == '.'

/-- Python regex dollar-anchor semantics for re.match over a whole
string: the match may end at the end of the string or just before a
single newline that ends the string.  Removing that one optional final
newline turns the anchored pattern into a plain suffix condition. -/
def stripNL (cs : List Char) : List Char :=
  if cs.getLast? = some '\n' then cs.dropLast else cs

/-- RegistryBlocker._validate_exe_name: re.match of the pattern
caret [backslash-w hyphen dot]+ dot exe dollar under re.IGNORECASE.
Closed form of the regex: after removing one optional trailing newline
(dollar semantics) the name has length at least five, every character
lies in the bracket class, and the last four characters are dot e x e up
to ASCII case.  The closed form is equivalent because the four suffix
characters themselves lie in the bracket class, so the pattern matches
exactly when some non-empty class prefix is followed by the
case-insensitive literal suffix. -/
def _validate_exe_name (s : String) : Bool :=
  let t := stripNL s.data
  decide (5 ≤ t.length) && t.all classChar
    && ((t.drop (t.length - 4)).map Char.toLower == ['.', 'e', 'x', 'e'])

/-- One character of the ASCII class [A-Za-z0-9_.-] named by the
specification. -/
def specClassChar (c : Char) : Bool :=
  c.isAlphanum || c == '_' || c == '-' || c == '.'

/-- Modelled from the specification wording, for comparison with the
source validator: the name matches caret [A-Za-z0-9_.-]+ dot exe dollar
case-insensitively, with the dollar read as plain end of string. -/
def specValidate (s : String) : Bool :=
  decide (5 ≤ s.data.length) && s.data.all specClassChar
    && ((s.data.drop (s.data.length - 4)).map Char.toLower == ['.', 'e', 'x', 'e'])

/-- One IFEO registry key for a target name.  The debugger field is the
optional string value named Debugger.  The hasSubkeys field records
whether the key still has subkeys, which makes RegDeleteKey fail.  The
accessDenied field records an access control list that denies this
process access to the key, so opening it raises PermissionError and a
read of it falls into the catch-all branch of is_blocked. -/
structure RegKey where
  debugger : Option String
  hasSubkeys : Bool
  accessDenied : Bool
deriving DecidableEq

/-- The machine state seen by RegistryBlocker: the IFEO subtree as an
association list from key name to key data, plus whether the current
process is elevated.  Any write access to HKEY_LOCAL_MACHINE raises
PermissionError when the process is not elevated. -/
structure RegState where
  keys : List (String × RegKey)
  elevated : Bool
deriving DecidableEq

/-- Registry key names compare case-insensitively (ASCII model). -/
def keyEq (m n : String) : Bool :=
  m.data.map Char.toLower == n.data.map Char.toLower

/-- First key of the association list whose name matches
case-insensitively, as the registry resolves a key path. -/
def lookupKey : List (String × RegKey) → String → Option RegKey
  | [], _ => none
  | (m, k) :: rest, n => if keyEq m n then some k else lookupKey rest n

/-- Replace the first matching key, or append a fresh one: the effect of
RegCreateKeyEx followed by writing the key data back. -/
def setKey : List (String × RegKey) → String → RegKey → List (String × RegKey)
  | [], n, k => [(n, k)]
  | (m, k0) :: rest, n, k =>
    if keyEq m n then (m, k) :: rest else (m, k0) :: setKey rest n k

/-- Remove the first matching key: the effect of RegDeleteKey. -/
def removeKey : List (String × RegKey) → String → List (String × RegKey)
  | [], _ => []
  | (m, k0) :: rest, n =>
    if keyEq m n then rest else (m, k0) :: removeKey rest n

/-- A well-formed registry never holds two keys with the same
case-insensitive name; every state reachable from a real registry
satisfies this. -/
def distinctKeys : List (String × RegKey) → Bool
  | [] => true
  | (m, _) :: rest => !(rest.any (fun p => keyEq p.1 m)) && distinctKeys rest

/-- RegistryBlocker.BLOCKER_CMD, the marker written to the Debugger
value. -/
def BLOCKER_CMD : String := "nul"

/-- RegistryBlocker.block_executable.  Validation first; then
CreateKeyEx with write access, which raises PermissionError when the
process is not elevated or the existing key denies access (state
untouched, message about missing administrator rights); otherwise the
key is created if absent and SetValueEx writes Debugger = nul. -/
def block_executable (s : RegState) (exe_name : String) : (Bool × String) × RegState :=
  if !_validate_exe_name exe_name then
    ((false, "Недопустимое имя: " ++ exe_name), s)
  else if !s.elevated then
    ((false, "Нет прав администратора для блокировки: " ++ exe_name), s)
  else
    match lookupKey s.keys exe_name with
    | none =>
      ((true, "Заблокирован: " ++ exe_name),
       { s with keys := setKey s.keys exe_name ⟨some BLOCKER_CMD, false, false⟩ })
    | some k =>
      if k.accessDenied then
        ((false, "Нет прав администратора для блокировки: " ++ exe_name), s)
      else
        ((true, "Заблокирован: " ++ exe_name),
         { s with keys := setKey s.keys exe_name { k with debugger := some BLOCKER_CMD } })

/-- RegistryBlocker.unblock_executable.  Validation first.  OpenKey with
write access raises FileNotFoundError when the key is absent, which the
source swallows, and the following DeleteKey of the absent key raises
FileNotFoundError too, also swallowed, so the call reports success.
When the key exists, OpenKey raises PermissionError unless the process
is elevated and the key grants access; on success DeleteValue removes
the Debugger value when present (absence swallowed) and DeleteKey then
removes the key unless it still has subkeys, a failure the source
swallows as well. -/
def unblock_executable (s : RegState) (exe_name : String) : (Bool × String) × RegState :=
  if !_validate_exe_name exe_name then
    ((false, "Недопустимое имя: " ++ exe_name), s)
  else
    match lookupKey s.keys exe_name with
    | none =>
      ((true, "Разблокирован: " ++ exe_name), s)
    | some k =>
      if !s.elevated || k.accessDenied then
        ((false, "Нет прав администратора для разблокировки: " ++ exe_name), s)
      else
        let keys1 := setKey s.keys exe_name { k with debugger := none }
        let keys2 := if k.hasSubkeys then keys1 else removeKey keys1 exe_name
        ((true, "Разблокирован: " ++ exe_name), { s with keys := keys2 })

/-- RegistryBlocker.is_blocked.  Validation first (false when the name
is invalid); OpenKey for read never mutates; an absent key or value, or
a key that denies access, yields false through the except branches; a
present Debugger value yields true exactly when it equals the marker. -/
def is_blocked (s : RegState) (exe_name : String) : Bool :=
  if !_validate_exe_name exe_name then
    false
  else
    match lookupKey s.keys exe_name with
    | none => false
    | some k =>
      if k.accessDenied then false
      else
        match k.debugger with
        | none => false
        | some v => v == BLOCKER_CMD

/-- RegistryBlocker.block_all: one block_executable call per name in
list order, collecting every message and conjoining the successes. -/
def block_all : RegState → List String → (Bool × List String) × RegState
  | s, [] => ((true, []), s)
  | s, exe :: rest =>
    let r1 := block_executable s exe
    let r2 := block_all r1.2 rest
    ((r1.1.1 && r2.1.1, r1.1.2 :: r2.1.2), r2.2)

/-- RegistryBlocker.unblock_all: one unblock_executable call per name in
list order, collecting every message and conjoining the successes. -/
def unblock_all : RegState → List String → (Bool × List String) × RegState
  | s, [] => ((true, []), s)
  | s, exe :: rest =>
    let r1 := unblock_executable s exe
    let r2 := unblock_all r1.2 rest
    ((r1.1.1 && r2.1.1, r1.1.2 :: r2.1.2), r2.2)

/-- The per-target trace of block_all: the individual result of each
block_executable call in list order, with the state threaded exactly as
block_all threads it. -/
def block_run : RegState → List String → List (Bool × String)
  | _, [] => []
  | s, exe :: rest =>
    (block_executable s exe).1 :: block_run (block_executable s exe).2 rest

/-- The per-target trace of unblock_all, analogous to block_run. -/
def unblock_run : RegState → List String → List (Bool × String)
  | _, [] => []
  | s, exe :: rest =>
    (unblock_executable s exe).1 :: unblock_run (unblock_executable s exe).2 rest

/-- Python dict insertion: an existing key keeps its position and gets
the new value, a fresh key is appended. -/
def dictInsert (d : List (String × Bool)) (k : String) (v : Bool) : List (String × Bool) :=
  if d.any (fun p => p.1 == k) then
    d.map (fun p => if p.1 == k then (p.1, v) else p)
  else
    d ++ [(k, v)]

/-- Python dict lookup over the insertion-ordered entry list. -/
def dictLookup : List (String × Bool) → String → Option Bool
  | [], _ => none
  | (m, b) :: rest, t => if m == t then some b else dictLookup rest t

/-- Loop of the dict comprehension of RegistryBlocker.get_status. -/
def statusLoop (s : RegState) : List (String × Bool) → List String → List (String × Bool)
  | d, [] => d
  | d, exe :: rest => statusLoop s (dictInsert d exe (is_blocked s exe)) rest

/-- RegistryBlocker.get_status: the dict mapping each listed name to its
is_blocked result. -/
def get_status (s : RegState) (executables : List String) : List (String × Bool) :=
  statusLoop s [] executables

/-- RegistryBlocker.is_any_blocked. -/
def is_any_blocked (s : RegState) (executables : List String) : Bool :=
  executables.any (fun exe => is_blocked s exe)

/-- RegistryBlocker.get_blocked_count. -/
def get_blocked_count (s : RegState) (executables : List String) : Nat :=
  (executables.filter (fun exe => is_blocked s exe)).length

/-- ProcessKiller.YANDEX_INDICATORS. -/
def YANDEX_INDICATORS : List String := ["yandex", "yabrowser", "yandexbrowser"]

/-- Whether the first character list is an initial segment of the
second. -/
def isPrefixChars : List Char → List Char → Bool
  | [], _ => true
  | _ :: _, [] => false
  | a :: as, b :: bs => a == b && isPrefixChars as bs

/-- Whether the needle occurs contiguously inside the haystack. -/
def containsSub (needle : List Char) : List Char → Bool
  | [] => needle.isEmpty
  | b :: bs => isPrefixChars needle (b :: bs) || containsSub needle bs

/-- Python substring membership: needle in hay. -/
def strIn (needle hay : String) : Bool :=
  containsSub needle.data hay.data

/-- Python str.lower, modelled for ASCII case. -/
def lowerStr (s : String) : String :=
  String.mk (s.data.map Char.toLower)

/-- One process snapshot as produced by psutil process_iter with the
fields name, exe and cmdline; each field may be missing (None). -/
structure ProcInfo where
  name : Option String
  exe : Option String
  cmdline : Option (List String)
deriving DecidableEq

/-- ProcessKiller._is_yandex_browser: missing fields default to empty,
the lowered resolved path is searched for each indicator, and a process
whose lowered declared name is exactly browser.exe is also matched when
the lowered space-joined argument vector contains an indicator. -/
def _is_yandex_browser (p : ProcInfo) : Bool :=
  let name := lowerStr (p.name.getD "")
  let exe := lowerStr (p.exe.getD "")
  let cmdline := p.cmdline.getD []
  if YANDEX_INDICATORS.any (fun ind => strIn ind exe) then
    true
  else if name == "browser.exe" then
    YANDEX_INDICATORS.any (fun ind => strIn ind (lowerStr (String.intercalate " " cmdline)))
  else
    false

/-! Helper lemmas about the list primitives of the model. -/

theorem list_all_congr {α : Type} (l : List α) (f g : α → Bool)
    (h : ∀ a ∈ l, f a = g a) : l.all f = l.all g := by
  induction l with
  | nil => rfl
  | cons a as ih =>
    simp only [List.all_cons]
    rw [h a (List.mem_cons_self a as), ih (fun x hx => h x (List.mem_cons_of_mem a hx))]

theorem list_filter_congr {α : Type} (l : List α) (f g : α → Bool)
    (h : ∀ a ∈ l, f a = g a) : l.filter f = l.filter g := by
  induction l with
  | nil => rfl
  | cons a as ih =>
    simp only [List.filter_cons]
    rw [h a (List.mem_cons_self a as), ih (fun x hx => h x (List.mem_cons_of_mem a hx))]

theorem keyEq_iff (m n : String) :
    keyEq m n = true ↔ m.data.map Char.toLower = n.data.map Char.toLower := by
  simp [keyEq]

theorem keyEq_refl (n : String) : keyEq n n = true := by
  simp [keyEq]

theorem keyEq_symm {m n : String} (h : keyEq m n = true) : keyEq n m = true := by
  rw [keyEq_iff] at h ⊢
  exact h.symm

theorem keyEq_trans {a b c : String} (h1 : keyEq a b = true) (h2 : keyEq b c = true) :
    keyEq a c = true := by
  rw [keyEq_iff] at h1 h2 ⊢
  exact h1.trans h2

theorem lookupKey_setKey_self (ks : List (String × RegKey)) (n : String) (k : RegKey) :
    lookupKey (setKey ks n k) n = some k := by
  induction ks with
  | nil => simp [setKey, lookupKey, keyEq_refl]
  | cons p rest ih =>
    obtain ⟨m, k0⟩ := p
    by_cases hm : keyEq m n = true
    · simp [setKey, lookupKey, hm]
    · simp [setKey, lookupKey, hm, ih]

theorem setKey_of_lookup {ks : List (String × RegKey)} {n : String} {k : RegKey}
    (h : lookupKey ks n = some k) : setKey ks n k = ks := by
  induction ks with
  | nil => simp [lookupKey] at h
  | cons p rest ih =>
    obtain ⟨m, k0⟩ := p
    by_cases hm : keyEq m n = true
    · simp only [lookupKey, hm, if_true, Option.some.injEq] at h
      simp [setKey, hm, h]
    · simp only [lookupKey] at h
      rw [if_neg hm] at h
      simp [setKey, hm, ih h]

theorem lookupKey_none_of_all {ks : List (String × RegKey)} {n : String}
    (h : ∀ p ∈ ks, keyEq p.1 n = false) : lookupKey ks n = none := by
  induction ks with
  | nil => rfl
  | cons p rest ih =>
    obtain ⟨m, k0⟩ := p
    have hm := h (m, k0) (List.mem_cons_self _ _)
    simp only at hm
    simp [lookupKey, hm, ih (fun q hq => h q (List.mem_cons_of_mem _ hq))]

theorem fst_mem_setKey {ks : List (String × RegKey)} {n : String} {k : RegKey}
    {q : String × RegKey} (hq : q ∈ setKey ks n k) : q.1 = n ∨ ∃ p ∈ ks, q.1 = p.1 := by
  induction ks with
  | nil =>
    simp [setKey] at hq
    simp [hq]
  | cons p0 rest ih =>
    obtain ⟨m, k0⟩ := p0
    by_cases hm : keyEq m n = true
    · simp only [setKey, hm, if_true, List.mem_cons] at hq
      rcases hq with rfl | hq
      · right; exact ⟨(m, k0), List.mem_cons_self _ _, rfl⟩
      · right; exact ⟨q, List.mem_cons_of_mem _ hq, rfl⟩
    · simp [setKey, hm] at hq
      rcases hq with rfl | hq
      · right; exact ⟨(m, k0), List.mem_cons_self _ _, rfl⟩
      · rcases ih hq with h | ⟨p, hp, he⟩
        · left; exact h
        · right; exact ⟨p, List.mem_cons_of_mem _ hp, he⟩

theorem any_eq_false_iff {α : Type} (l : List α) (f : α → Bool) :
    l.any f = false ↔ ∀ p ∈ l, f p = false := by
  rw [← Bool.not_eq_true, List.any_eq_true]
  push_neg
  constructor
  · intro h p hp
    have := h p hp
    simpa using this
  · intro h p hp
    simp [h p hp]

theorem distinctKeys_setKey {ks : List (String × RegKey)} {n : String} {k : RegKey}
    (h : distinctKeys ks = true) : distinctKeys (setKey ks n k) = true := by
  induction ks with
  | nil => simp [setKey, distinctKeys]
  | cons p rest ih =>
    obtain ⟨m, k0⟩ := p
    simp only [distinctKeys, Bool.and_eq_true, Bool.not_eq_true'] at h
    obtain ⟨hany, hrest⟩ := h
    by_cases hm : keyEq m n = true
    · simp [setKey, hm, distinctKeys, hany, hrest]
    · show distinctKeys (if keyEq m n = true then (m, k) :: rest else (m, k0) :: setKey rest n k) = true
      rw [if_neg hm]
      simp only [distinctKeys, Bool.and_eq_true, Bool.not_eq_true']
      refine ⟨?_, ih hrest⟩
      rw [any_eq_false_iff]
      intro q hq
      by_contra hcon
      rw [Bool.not_eq_false] at hcon
      rcases fst_mem_setKey hq with he | ⟨p, hp, he⟩
      · rw [he] at hcon
        exact hm (keyEq_symm hcon)
      · have hfalse := (any_eq_false_iff rest _).mp hany p hp
        rw [he] at hcon
        simp [hcon] at hfalse

theorem mem_removeKey {ks : List (String × RegKey)} {n : String} {q : String × RegKey}
    (hq : q ∈ removeKey ks n) : q ∈ ks := by
  induction ks with
  | nil => simp [removeKey] at hq
  | cons p rest ih =>
    obtain ⟨m, k0⟩ := p
    by_cases hm : keyEq m n = true
    · simp only [removeKey, hm, if_true] at hq
      exact List.mem_cons_of_mem _ hq
    · simp [removeKey, hm] at hq
      rcases hq with rfl | hq
      · exact List.mem_cons_self _ _
      · exact List.mem_cons_of_mem _ (ih hq)

theorem distinctKeys_removeKey {ks : List (String × RegKey)} {n : String}
    (h : distinctKeys ks = true) : distinctKeys (removeKey ks n) = true := by
  induction ks with
  | nil => simp [removeKey, distinctKeys]
  | cons p rest ih =>
    obtain ⟨m, k0⟩ := p
    simp only [distinctKeys, Bool.and_eq_true, Bool.not_eq_true'] at h
    obtain ⟨hany, hrest⟩ := h
    by_cases hm : keyEq m n = true
    · simp only [removeKey, hm, if_true]
      exact hrest
    · show distinctKeys (if keyEq m n = true then rest else (m, k0) :: removeKey rest n) = true
      rw [if_neg hm]
      simp only [distinctKeys, Bool.and_eq_true, Bool.not_eq_true']
      refine ⟨?_, ih hrest⟩
      rw [any_eq_false_iff]
      intro q hq
      exact (any_eq_false_iff rest _).mp hany q (mem_removeKey hq)

theorem lookupKey_removeKey_self {ks : List (String × RegKey)} {n : String}
    (h : distinctKeys ks = true) : lookupKey (removeKey ks n) n = none := by
  induction ks with
  | nil => rfl
  | cons p rest ih =>
    obtain ⟨m, k0⟩ := p
    simp only [distinctKeys, Bool.and_eq_true, Bool.not_eq_true'] at h
    obtain ⟨hany, hrest⟩ := h
    by_cases hm : keyEq m n = true
    · simp only [removeKey, hm, if_true]
      apply lookupKey_none_of_all
      intro q hq
      by_contra hcon
      rw [Bool.not_eq_false] at hcon
      have hqm : keyEq q.1 m = true := keyEq_trans hcon (keyEq_symm hm)
      have hfalse := (any_eq_false_iff rest _).mp hany q hq
      simp [hqm] at hfalse
    · show lookupKey (if keyEq m n = true then rest else (m, k0) :: removeKey rest n) n = none
      rw [if_neg hm]
      simp only [lookupKey]
      rw [if_neg hm]
      exact ih hrest

theorem classChar_ascii {c : Char} (h : c.toNat < 128) : classChar c = specClassChar c := by
  have h4 : decide (0x410 ≤ c.toNat) = false := by
    simp only [decide_eq_false_iff_not]
    omega
  simp [classChar, isWordChar, specClassChar, h4, Bool.or_assoc]

theorem mem_stripNL {cs : List Char} {c : Char} (h : c ∈ stripNL cs) : c ∈ cs := by
  unfold stripNL at h
  split at h
  · exact (List.dropLast_sublist cs).subset h
  · exact h

/-! Evaluation lemmas: how each registry operation behaves on each of
its branches, and what a reported success implies. -/

theorem block_eval_fresh {s : RegState} {n : String}
    (hval : _validate_exe_name n = true) (helev : s.elevated = true)
    (hlk : lookupKey s.keys n = none) :
    block_executable s n =
      ((true, "Заблокирован: " ++ n),
       { s with keys := setKey s.keys n ⟨some BLOCKER_CMD, false, false⟩ }) := by
  simp [block_executable, hval, helev, hlk]

theorem block_eval_found {s : RegState} {n : String} {k : RegKey}
    (hval : _validate_exe_name n = true) (helev : s.elevated = true)
    (hlk : lookupKey s.keys n = some k) (hd : k.accessDenied = false) :
    block_executable s n =
      ((true, "Заблокирован: " ++ n),
       { s with keys := setKey s.keys n { k with debugger := some BLOCKER_CMD } }) := by
  simp [block_executable, hval, helev, hlk, hd]

theorem unblock_eval_absent {s : RegState} {n : String}
    (hval : _validate_exe_name n = true) (hlk : lookupKey s.keys n = none) :
    unblock_executable s n = ((true, "Разблокирован: " ++ n), s) := by
  simp [unblock_executable, hval, hlk]

theorem unblock_eval_found {s : RegState} {n : String} {k : RegKey}
    (hval : _validate_exe_name n = true) (hlk : lookupKey s.keys n = some k)
    (helev : s.elevated = true) (hd : k.accessDenied = false) :
    unblock_executable s n =
      ((true, "Разблокирован: " ++ n),
       { s with keys :=
          if k.hasSubkeys then setKey s.keys n { k with debugger := none }
          else removeKey (setKey s.keys n { k with debugger := none }) n }) := by
  simp [unblock_executable, hval, hlk, helev, hd]

theorem block_success_cases {s : RegState} {n : String}
    (h : (block_executable s n).1.1 = true) :
    _validate_exe_name n = true ∧ s.elevated = true ∧
      (lookupKey s.keys n = none ∨
       ∃ k, lookupKey s.keys n = some k ∧ k.accessDenied = false) := by
  by_cases hval : _validate_exe_name n = true
  · by_cases helev : s.elevated = true
    · rcases hlk : lookupKey s.keys n with _ | k
      · exact ⟨hval, helev, Or.inl rfl⟩
      · by_cases hd : k.accessDenied = true
        · have hf : (block_executable s n).1.1 = false := by
            simp [block_executable, hval, helev, hlk, hd]
          simp [hf] at h
        · exact ⟨hval, helev, Or.inr ⟨k, rfl, by simpa using hd⟩⟩
    · have hf : (block_executable s n).1.1 = false := by
        simp [block_executable, hval, helev]
      simp [hf] at h
  · have hf : (block_executable s n).1.1 = false := by
      simp [block_executable, hval]
    simp [hf] at h

theorem unblock_success_cases {s : RegState} {n : String}
    (h : (unblock_executable s n).1.1 = true) :
    _validate_exe_name n = true ∧
      (lookupKey s.keys n = none ∨
       ∃ k, lookupKey s.keys n = some k ∧ s.elevated = true ∧ k.accessDenied = false) := by
  by_cases hval : _validate_exe_name n = true
  · rcases hlk : lookupKey s.keys n with _ | k
    · exact ⟨hval, Or.inl rfl⟩
    · by_cases helev : s.elevated = true
      · by_cases hd : k.accessDenied = true
        · have hf : (unblock_executable s n).1.1 = false := by
            simp [unblock_executable, hval, hlk, hd]
          simp [hf] at h
        · exact ⟨hval, Or.inr ⟨k, rfl, helev, by simpa using hd⟩⟩
      · have hf : (unblock_executable s n).1.1 = false := by
          simp [unblock_executable, hval, hlk, helev]
        simp [hf] at h
  · have hf : (unblock_executable s n).1.1 = false := by
      simp [unblock_executable, hval]
    simp [hf] at h

theorem unblock_noop_of_cleared {s : RegState} {n : String} {k : RegKey}
    (hval : _validate_exe_name n = true) (hlk : lookupKey s.keys n = some k)
    (helev : s.elevated = true) (hd : k.accessDenied = false)
    (hdbg : k.debugger = none) (hsub : k.hasSubkeys = true) :
    unblock_executable s n = ((true, "Разблокирован: " ++ n), s) := by
  rw [unblock_eval_found hval hlk helev hd]
  have hupd : ({ k with debugger := none } : RegKey) = k := by
    cases k
    simp only at hdbg
    simp [hdbg]
  rw [hupd, if_pos hsub, setKey_of_lookup hlk]

/-! Claim theorems. -/

/-- C2 counterexample: the name browser.exe followed by a newline
character contains a character outside the class [A-Za-z0-9_.-] and does
not match the specification pattern, yet the source validator accepts
it, because re.match with a dollar anchor also matches just before one
trailing newline. -/
theorem validate_trailing_newline_cex :
    _validate_exe_name "browser.exe\n" = true ∧ specValidate "browser.exe\n" = false := by
  decide

/-- C2 (amended): over ASCII names the source validator accepts exactly
the names that, after removal of one optional trailing newline, match
the pattern caret [A-Za-z0-9_.-]+ dot exe dollar case-insensitively; on
ASCII names without a trailing newline it coincides with the
specification pattern. -/
theorem validate_eq_spec_pattern_ascii :
    ∀ s : String, (∀ c ∈ s.data, c.toNat < 128) →
      _validate_exe_name s = specValidate (String.mk (stripNL s.data)) ∧
      (s.data.getLast? ≠ some '\n' → _validate_exe_name s = specValidate s) := by
  intro s hascii
  obtain ⟨cs⟩ := s
  have hsub : ∀ c ∈ stripNL cs, c.toNat < 128 := fun c hc => hascii c (mem_stripNL hc)
  have hall : (stripNL cs).all classChar = (stripNL cs).all specClassChar :=
    list_all_congr _ _ _ (fun c hc => classChar_ascii (hsub c hc))
  have hmain : _validate_exe_name ⟨cs⟩ = specValidate ⟨stripNL cs⟩ := by
    show (decide (5 ≤ (stripNL cs).length) && (stripNL cs).all classChar
        && (((stripNL cs).drop ((stripNL cs).length - 4)).map Char.toLower
            == ['.', 'e', 'x', 'e']))
      = specValidate ⟨stripNL cs⟩
    rw [hall]
    rfl
  refine ⟨hmain, fun hne => ?_⟩
  have hstrip : stripNL cs = cs := by
    unfold stripNL
    rw [if_neg hne]
  rw [hmain, hstrip]

/-- C2 witness: the amended theorem applied at the ASCII name
browser.exe, which has no trailing newline, so the source validator and
the specification pattern agree there. -/
theorem validate_eq_spec_pattern_ascii_witness :
    _validate_exe_name "browser.exe" = specValidate "browser.exe" :=
  (validate_eq_spec_pattern_ascii "browser.exe" (by decide)).2 (by decide)

/-- C6 counterexample: for the name noextension, which fails validation,
the container exists and holds the exact marker, yet is_blocked returns
false, because validation rejects the name before the store is read. -/
theorem is_blocked_invalid_name_cex :
    lookupKey [("noextension", (⟨some BLOCKER_CMD, false, false⟩ : RegKey))] "noextension"
      = some ⟨some BLOCKER_CMD, false, false⟩ ∧
    is_blocked ⟨[("noextension", ⟨some BLOCKER_CMD, false, false⟩)], true⟩ "noextension"
      = false := by
  decide

/-- C6 (amended): is_blocked is a pure total boolean query of the state,
and it returns true exactly when the name passes validation, the
container exists, the container grants read access, and its Debugger
value equals the exact marker nul; every failing read, that is an
invalid name, an absent container, denied access, an absent value or a
different value, yields false. -/
theorem is_blocked_iff :
    ∀ (s : RegState) (n : String),
      is_blocked s n = true ↔
        (_validate_exe_name n = true ∧
         ∃ k, lookupKey s.keys n = some k ∧ k.accessDenied = false ∧
           k.debugger = some BLOCKER_CMD) := by
  intro s n
  by_cases hval : _validate_exe_name n = true
  · rcases hlk : lookupKey s.keys n with _ | k
    · simp [is_blocked, hval, hlk]
    · by_cases hd : k.accessDenied = true
      · simp [is_blocked, hval, hlk, hd]
      · rcases hdbg : k.debugger with _ | v
        · simp [is_blocked, hval, hlk, hd, hdbg]
        · have hd' : k.accessDenied = false := by simpa using hd
          simp [is_blocked, hval, hlk, hd', hdbg, beq_iff_eq]
  · simp [is_blocked, hval]

/-- C7: the classifier matches a process exactly when its lowered
resolved path contains one of the indicator substrings, regardless of
the declared name, or its lowered declared name is exactly browser.exe
and the lowered space-joined argument vector contains an indicator
substring; in particular a process named browser.exe whose path and
arguments contain no indicator does not match. -/
theorem is_yandex_browser_iff :
    ∀ p : ProcInfo,
      _is_yandex_browser p = true ↔
        ((∃ ind ∈ YANDEX_INDICATORS, strIn ind (lowerStr (p.exe.getD "")) = true) ∨
         (lowerStr (p.name.getD "") = "browser.exe" ∧
          ∃ ind ∈ YANDEX_INDICATORS,
            strIn ind (lowerStr (String.intercalate " " (p.cmdline.getD []))) = true)) := by
  intro p
  unfold _is_yandex_browser
  by_cases hexe : (YANDEX_INDICATORS.any fun ind => strIn ind (lowerStr (p.exe.getD ""))) = true
  · rw [if_pos hexe]
    simp only [true_iff]
    left
    exact List.any_eq_true.mp hexe
  · rw [if_neg hexe]
    by_cases hname : (lowerStr (p.name.getD "") == "browser.exe") = true
    · rw [if_pos hname]
      have hname2 : lowerStr (p.name.getD "") = "browser.exe" := by
        simpa [beq_iff_eq] using hname
      rw [List.any_eq_true]
      constructor
      · intro h
        exact Or.inr ⟨hname2, h⟩
      · rintro (h | ⟨_, h⟩)
        · exact absurd (List.any_eq_true.mpr h) hexe
        · exact h
    · rw [if_neg hname]
      simp only [Bool.false_eq_true, false_iff]
      rintro (h | ⟨h, _⟩)
      · exact hexe (List.any_eq_true.mpr h)
      · exact hname (by simp [beq_iff_eq, h])

/-- C10: the classifier is total over records with missing fields: a
record classifies exactly like the record whose missing fields are
replaced by their empty defaults, and the record with all three fields
absent does not match. -/
theorem is_yandex_browser_total_on_missing :
    (∀ p : ProcInfo,
       _is_yandex_browser p =
         _is_yandex_browser
           ⟨some (p.name.getD ""), some (p.exe.getD ""), some (p.cmdline.getD [])⟩) ∧
    _is_yandex_browser ⟨none, none, none⟩ = false := by
  refine ⟨fun p => rfl, by decide⟩

/-- C3 counterexample: without elevation, unblocking the valid name
browser.exe over an empty store reports success instead of a permission
failure, because the absent key raises FileNotFoundError at OpenKey and
at DeleteKey, and the source swallows both. -/
theorem unelevated_unblock_absent_cex :
    _validate_exe_name "browser.exe" = true ∧
    (unblock_executable ⟨[], false⟩ "browser.exe").1.1 = true := by
  decide

/-- C3 (amended): without elevation no store mutation happens: block on
a valid name always fails with the permission message and returns the
state unchanged, and unblock returns the state unchanged and fails with
the permission message exactly when the container exists; when the
container is absent there is no mutation to attempt and the call
trivially succeeds. -/
theorem unelevated_ops_fail_before_mutation :
    ∀ (s : RegState) (n : String), s.elevated = false → _validate_exe_name n = true →
      (block_executable s n).1
        = (false, "Нет прав администратора для блокировки: " ++ n) ∧
      (block_executable s n).2 = s ∧
      (unblock_executable s n).2 = s ∧
      ((unblock_executable s n).1
          = (false, "Нет прав администратора для разблокировки: " ++ n)
        ↔ (lookupKey s.keys n).isSome = true) := by
  intro s n helev hval
  have hb : block_executable s n
      = ((false, "Нет прав администратора для блокировки: " ++ n), s) := by
    simp [block_executable, hval, helev]
  rcases hlk : lookupKey s.keys n with _ | k
  · have hu := unblock_eval_absent hval hlk
    simp [hb, hu, hlk]
  · have hu : unblock_executable s n
        = ((false, "Нет прав администратора для разблокировки: " ++ n), s) := by
      simp [unblock_executable, hval, hlk, helev]
    simp [hb, hu, hlk]

/-- C3 witness: with a container present and no elevation, block fails
with the permission message. -/
theorem unelevated_ops_fail_before_mutation_witness :
    (block_executable ⟨[("browser.exe", ⟨some BLOCKER_CMD, false, false⟩)], false⟩
        "browser.exe").1
      = (false, "Нет прав администратора для блокировки: " ++ "browser.exe") :=
  (unelevated_ops_fail_before_mutation
    ⟨[("browser.exe", ⟨some BLOCKER_CMD, false, false⟩)], false⟩
    "browser.exe" rfl (by decide)).1

/-- C1 counterexample: in an unelevated state with an empty store,
block on the valid name browser.exe followed by is_blocked yields false
rather than true, because the block itself fails with a permission
error and mutates nothing. -/
theorem block_then_query_unelevated_cex :
    _validate_exe_name "browser.exe" = true ∧
    is_blocked (block_executable ⟨[], false⟩ "browser.exe").2 "browser.exe" = false := by
  decide

/-- C1 (amended): over every well-formed state, when block reports
success, is_blocked afterwards returns true, and when unblock reports
success, is_blocked afterwards returns false. -/
theorem query_after_successful_op :
    ∀ (s : RegState) (n : String), distinctKeys s.keys = true →
      ((block_executable s n).1.1 = true →
        is_blocked (block_executable s n).2 n = true) ∧
      ((unblock_executable s n).1.1 = true →
        is_blocked (unblock_executable s n).2 n = false) := by
  intro s n hwf
  constructor
  · intro hsucc
    obtain ⟨hval, helev, hcases⟩ := block_success_cases hsucc
    rcases hcases with hlk | ⟨k, hlk, hd⟩
    · rw [block_eval_fresh hval helev hlk]
      simp [is_blocked, hval, lookupKey_setKey_self]
    · rw [block_eval_found hval helev hlk hd]
      simp [is_blocked, hval, lookupKey_setKey_self, hd]
  · intro hsucc
    obtain ⟨hval, hcases⟩ := unblock_success_cases hsucc
    rcases hcases with hlk | ⟨k, hlk, helev, hd⟩
    · rw [unblock_eval_absent hval hlk]
      simp [is_blocked, hval, hlk]
    · rw [unblock_eval_found hval hlk helev hd]
      by_cases hsub : k.hasSubkeys = true
      · simp only [hsub, if_true]
        simp [is_blocked, hval, lookupKey_setKey_self]
      · rw [if_neg hsub]
        have hwf2 : distinctKeys (setKey s.keys n { k with debugger := none }) = true :=
          distinctKeys_setKey hwf
        simp [is_blocked, hval, lookupKey_removeKey_self hwf2]

/-- C1 witness: an elevated block over the empty store leaves the name
blocked. -/
theorem query_after_successful_op_witness :
    is_blocked (block_executable ⟨[], true⟩ "browser.exe").2 "browser.exe" = true :=
  (query_after_successful_op ⟨[], true⟩ "browser.exe" (by decide)).1 (by decide)

/-- C4 counterexample: without elevation the second block of the valid
name browser.exe fails exactly like the first one and leaves is_blocked
false, against the claim that the second call always succeeds. -/
theorem repeat_block_unelevated_cex :
    _validate_exe_name "browser.exe" = true ∧
    (block_executable (block_executable ⟨[], false⟩ "browser.exe").2 "browser.exe").1.1
      = false ∧
    is_blocked
      (block_executable (block_executable ⟨[], false⟩ "browser.exe").2 "browser.exe").2
      "browser.exe" = false := by
  decide

/-- C4 (amended): over every well-formed state, when the first block
reports success the second block also reports success, changes nothing,
and leaves is_blocked true; when the first unblock reports success the
second unblock also reports success, changes nothing, and leaves
is_blocked false. -/
theorem ops_idempotent_after_success :
    ∀ (s : RegState) (n : String), distinctKeys s.keys = true →
      ((block_executable s n).1.1 = true →
        (block_executable (block_executable s n).2 n).1.1 = true ∧
        (block_executable (block_executable s n).2 n).2 = (block_executable s n).2 ∧
        is_blocked (block_executable (block_executable s n).2 n).2 n = true) ∧
      ((unblock_executable s n).1.1 = true →
        (unblock_executable (unblock_executable s n).2 n).1.1 = true ∧
        (unblock_executable (unblock_executable s n).2 n).2 = (unblock_executable s n).2 ∧
        is_blocked (unblock_executable (unblock_executable s n).2 n).2 n = false) := by
  intro s n hwf
  constructor
  · intro hsucc
    obtain ⟨hval, helev, hcases⟩ := block_success_cases hsucc
    have hstate : ∃ k1 : RegKey, (block_executable s n).2.keys = setKey s.keys n k1 ∧
        k1.debugger = some BLOCKER_CMD ∧ k1.accessDenied = false ∧
        (block_executable s n).2.elevated = s.elevated := by
      rcases hcases with hlk | ⟨k, hlk, hd⟩
      · exact ⟨⟨some BLOCKER_CMD, false, false⟩,
          by rw [block_eval_fresh hval helev hlk], rfl, rfl,
          by rw [block_eval_fresh hval helev hlk]⟩
      · exact ⟨{ k with debugger := some BLOCKER_CMD },
          by rw [block_eval_found hval helev hlk hd], rfl, by simpa using hd,
          by rw [block_eval_found hval helev hlk hd]⟩
    obtain ⟨k1, hkeys, hdbg, hden, helevkeep⟩ := hstate
    have hlk1 : lookupKey (block_executable s n).2.keys n = some k1 := by
      rw [hkeys]
      exact lookupKey_setKey_self _ _ _
    have helev1 : (block_executable s n).2.elevated = true := by
      rw [helevkeep, helev]
    have heval2 := block_eval_found hval helev1 hlk1 hden
    have hupd : ({ k1 with debugger := some BLOCKER_CMD } : RegKey) = k1 := by
      cases k1
      simp only at hdbg
      simp [hdbg]
    rw [heval2]
    refine ⟨rfl, ?_, ?_⟩
    · rw [hupd, setKey_of_lookup hlk1]
    · simp [is_blocked, hval, lookupKey_setKey_self, hden]
  · intro hsucc
    obtain ⟨hval, hcases⟩ := unblock_success_cases hsucc
    rcases hcases with hlk | ⟨k, hlk, helev, hd⟩
    · simp [unblock_eval_absent hval hlk, is_blocked, hval, hlk]
    · have heval1 := unblock_eval_found hval hlk helev hd
      by_cases hsub : k.hasSubkeys = true
      · rw [heval1, if_pos hsub]
        have hlk1 : lookupKey
            ({ s with keys := setKey s.keys n { k with debugger := none } } : RegState).keys n
            = some { k with debugger := none } := lookupKey_setKey_self _ _ _
        have heval2 := unblock_noop_of_cleared hval hlk1 helev hd rfl hsub
        rw [heval2]
        exact ⟨rfl, rfl, by simp [is_blocked, hval, lookupKey_setKey_self]⟩
      · rw [heval1, if_neg hsub]
        have hwf2 : distinctKeys (setKey s.keys n { k with debugger := none }) = true :=
          distinctKeys_setKey hwf
        have hlk1 : lookupKey
            ({ s with
                keys := removeKey (setKey s.keys n { k with debugger := none }) n } :
              RegState).keys n = none := lookupKey_removeKey_self hwf2
        have heval2 := unblock_eval_absent hval hlk1
        rw [heval2]
        exact ⟨rfl, rfl, by simp [is_blocked, hval, hlk1]⟩

/-- C4 witness: an elevated block over the empty store can be repeated
with success. -/
theorem ops_idempotent_after_success_witness :
    (block_executable (block_executable ⟨[], true⟩ "browser.exe").2 "browser.exe").1.1
      = true :=
  ((ops_idempotent_after_success ⟨[], true⟩ "browser.exe" (by decide)).1 (by decide)).1

/-- C8 counterexample: without elevation, unblocking the valid name
browser.exe whose container exists with the marker value already absent
fails with the permission message instead of succeeding, because
OpenKey with write access raises PermissionError on the existing key. -/
theorem unblock_absent_marker_unelevated_cex :
    _validate_exe_name "browser.exe" = true ∧
    (unblock_executable ⟨[("browser.exe", ⟨none, false, false⟩)], false⟩ "browser.exe").1.1
      = false := by
  decide

/-- C8 (amended): for a valid name, unblock succeeds trivially when the
container is absent (NotFound is success and the state is unchanged);
when the process is elevated and the container grants access, unblock
succeeds even though the marker value is already absent; and when the
container still has subkeys the failure to delete it is ignored: the
call still succeeds and the container survives with its Debugger value
cleared. -/
theorem unblock_absence_and_nonempty_container :
    ∀ (s : RegState) (n : String), _validate_exe_name n = true →
      (lookupKey s.keys n = none →
        unblock_executable s n = ((true, "Разблокирован: " ++ n), s)) ∧
      (∀ k, lookupKey s.keys n = some k → s.elevated = true → k.accessDenied = false →
        k.debugger = none →
        (unblock_executable s n).1.1 = true) ∧
      (∀ k, lookupKey s.keys n = some k → s.elevated = true → k.accessDenied = false →
        k.hasSubkeys = true →
        (unblock_executable s n).1.1 = true ∧
        lookupKey (unblock_executable s n).2.keys n = some { k with debugger := none }) := by
  intro s n hval
  refine ⟨fun hlk => unblock_eval_absent hval hlk, ?_, ?_⟩
  · intro k hlk helev hd _
    rw [unblock_eval_found hval hlk helev hd]
  · intro k hlk helev hd hsub
    rw [unblock_eval_found hval hlk helev hd]
    refine ⟨rfl, ?_⟩
    simp only [hsub, if_true]
    exact lookupKey_setKey_self _ _ _

/-- C8 witness: an elevated unblock of a container that still has
subkeys succeeds and leaves the container with its value cleared. -/
theorem unblock_absence_and_nonempty_container_witness :
    (unblock_executable ⟨[("browser.exe", ⟨some BLOCKER_CMD, true, false⟩)], true⟩
        "browser.exe").1.1 = true ∧
    lookupKey (unblock_executable ⟨[("browser.exe", ⟨some BLOCKER_CMD, true, false⟩)], true⟩
        "browser.exe").2.keys "browser.exe" = some ⟨none, true, false⟩ :=
  (unblock_absence_and_nonempty_container
    ⟨[("browser.exe", ⟨some BLOCKER_CMD, true, false⟩)], true⟩ "browser.exe"
    (by decide)).2.2 ⟨some BLOCKER_CMD, true, false⟩ (by decide) rfl rfl rfl

theorem block_all_spec :
    ∀ (ts : List String) (s : RegState),
      (block_all s ts).1.2 = (block_run s ts).map Prod.snd ∧
      (block_run s ts).length = ts.length ∧
      ((block_all s ts).1.1 = true ↔ ∀ r ∈ block_run s ts, r.1 = true) := by
  intro ts
  induction ts with
  | nil => intro s; simp [block_all, block_run]
  | cons exe rest ih =>
    intro s
    obtain ⟨ih1, ih2, ih3⟩ := ih (block_executable s exe).2
    refine ⟨?_, ?_, ?_⟩
    · simp [block_all, block_run, ih1]
    · simp [block_run, ih2]
    · simp [block_all, block_run, Bool.and_eq_true, ih3, List.forall_mem_cons]

theorem unblock_all_spec :
    ∀ (ts : List String) (s : RegState),
      (unblock_all s ts).1.2 = (unblock_run s ts).map Prod.snd ∧
      (unblock_run s ts).length = ts.length ∧
      ((unblock_all s ts).1.1 = true ↔ ∀ r ∈ unblock_run s ts, r.1 = true) := by
  intro ts
  induction ts with
  | nil => intro s; simp [unblock_all, unblock_run]
  | cons exe rest ih =>
    intro s
    obtain ⟨ih1, ih2, ih3⟩ := ih (unblock_executable s exe).2
    refine ⟨?_, ?_, ?_⟩
    · simp [unblock_all, unblock_run, ih1]
    · simp [unblock_run, ih2]
    · simp [unblock_all, unblock_run, Bool.and_eq_true, ih3, List.forall_mem_cons]

/-- C5: blockAll and unblockAll attempt every target in list order with
no short-circuit: the collected messages are exactly the messages of the
per-target trace, the trace has one entry per target, and the aggregate
flag is true exactly when every individual call in the trace
succeeded. -/
theorem batch_ops_full_report :
    ∀ (s : RegState) (ts : List String),
      (block_all s ts).1.2 = (block_run s ts).map Prod.snd ∧
      (block_run s ts).length = ts.length ∧
      ((block_all s ts).1.1 = true ↔ ∀ r ∈ block_run s ts, r.1 = true) ∧
      (unblock_all s ts).1.2 = (unblock_run s ts).map Prod.snd ∧
      (unblock_run s ts).length = ts.length ∧
      ((unblock_all s ts).1.1 = true ↔ ∀ r ∈ unblock_run s ts, r.1 = true) := by
  intro s ts
  obtain ⟨h1, h2, h3⟩ := block_all_spec ts s
  obtain ⟨h4, h5, h6⟩ := unblock_all_spec ts s
  exact ⟨h1, h2, h3, h4, h5, h6⟩

/-! Dict lemmas for the status queries. -/

theorem dictLookup_mem {d : List (String × Bool)} {t : String} {b : Bool}
    (h : dictLookup d t = some b) : (t, b) ∈ d := by
  induction d with
  | nil => simp [dictLookup] at h
  | cons p rest ih =>
    obtain ⟨m, v⟩ := p
    by_cases hm : (m == t) = true
    · simp only [dictLookup] at h
      rw [if_pos hm] at h
      have hmt : m = t := by simpa using hm
      have hvb : v = b := by simpa using h
      subst hmt
      subst hvb
      exact List.mem_cons_self _ _
    · simp only [dictLookup] at h
      rw [if_neg hm] at h
      exact List.mem_cons_of_mem _ (ih h)

theorem dictInsert_entries {d : List (String × Bool)} {g : String → Bool} {k : String}
    (hd : ∀ p ∈ d, p.2 = g p.1) : ∀ p ∈ dictInsert d k (g k), p.2 = g p.1 := by
  intro p hp
  unfold dictInsert at hp
  by_cases hany : (d.any fun q => q.1 == k) = true
  · rw [if_pos hany] at hp
    rw [List.mem_map] at hp
    obtain ⟨q, hq, he⟩ := hp
    by_cases hqk : (q.1 == k) = true
    · rw [if_pos hqk] at he
      have hqk2 : q.1 = k := by simpa using hqk
      rw [← he]
      simp [hqk2]
    · rw [if_neg hqk] at he
      rw [← he]
      exact hd q hq
  · rw [if_neg hany] at hp
    rw [List.mem_append] at hp
    rcases hp with hp | hp
    · exact hd p hp
    · simp only [List.mem_singleton] at hp
      simp [hp]

theorem dictInsert_fst {d : List (String × Bool)} {k : String} {v : Bool}
    {p : String × Bool} (hp : p ∈ dictInsert d k v) :
    p.1 = k ∨ ∃ q ∈ d, p.1 = q.1 := by
  unfold dictInsert at hp
  by_cases hany : (d.any fun q => q.1 == k) = true
  · rw [if_pos hany] at hp
    rw [List.mem_map] at hp
    obtain ⟨q, hq, he⟩ := hp
    by_cases hqk : (q.1 == k) = true
    · rw [if_pos hqk] at he
      right; exact ⟨q, hq, by rw [← he]⟩
    · rw [if_neg hqk] at he
      right; exact ⟨q, hq, by rw [← he]⟩
  · rw [if_neg hany] at hp
    rw [List.mem_append] at hp
    rcases hp with hp | hp
    · right; exact ⟨p, hp, rfl⟩
    · left
      simp only [List.mem_singleton] at hp
      simp [hp]

theorem dictLookup_append_left {d l : List (String × Bool)} {t : String} {b : Bool}
    (h : dictLookup d t = some b) : dictLookup (d ++ l) t = some b := by
  induction d with
  | nil => simp [dictLookup] at h
  | cons p rest ih =>
    obtain ⟨m, v⟩ := p
    by_cases hm : (m == t) = true
    · simp only [dictLookup] at h
      rw [if_pos hm] at h
      simp only [List.cons_append, dictLookup]
      rw [if_pos hm]
      exact h
    · simp only [dictLookup] at h
      rw [if_neg hm] at h
      simp only [List.cons_append, dictLookup]
      rw [if_neg hm]
      exact ih h

theorem dictLookup_new_key {d : List (String × Bool)} {k : String} {v : Bool}
    (h : ∀ p ∈ d, (p.1 == k) = false) :
    dictLookup (d ++ [(k, v)]) k = some v := by
  induction d with
  | nil => simp [dictLookup]
  | cons p rest ih =>
    obtain ⟨m, b⟩ := p
    have hm := h (m, b) (List.mem_cons_self _ _)
    simp only at hm
    simp only [List.cons_append, dictLookup]
    rw [if_neg (by simp [hm])]
    exact ih (fun q hq => h q (List.mem_cons_of_mem _ hq))

theorem dictLookup_map_self {d : List (String × Bool)} {k : String} {v : Bool}
    (h : (d.any fun q => q.1 == k) = true) :
    dictLookup (d.map fun p => if p.1 == k then (p.1, v) else p) k = some v := by
  induction d with
  | nil => simp at h
  | cons p rest ih =>
    obtain ⟨m, b⟩ := p
    simp only [List.map_cons]
    by_cases hmk : (m == k) = true
    · rw [if_pos hmk]
      simp only [dictLookup]
      rw [if_pos hmk]
    · rw [if_neg hmk]
      simp only [dictLookup]
      rw [if_neg hmk]
      apply ih
      simp only [List.any_cons] at h
      rw [Bool.or_eq_true] at h
      rcases h with hx | hx
      · exact absurd hx hmk
      · exact hx

theorem dictLookup_map_isSome (d : List (String × Bool)) (k t : String) (v : Bool) :
    (dictLookup (d.map fun p => if p.1 == k then (p.1, v) else p) t).isSome
      = (dictLookup d t).isSome := by
  induction d with
  | nil => simp [dictLookup]
  | cons p rest ih =>
    obtain ⟨m, b⟩ := p
    simp only [List.map_cons]
    by_cases hmk : (m == k) = true
    · rw [if_pos hmk]
      simp only [dictLookup]
      by_cases hmt : (m == t) = true
      · rw [if_pos hmt, if_pos hmt]
        rfl
      · rw [if_neg hmt, if_neg hmt]
        exact ih
    · rw [if_neg hmk]
      simp only [dictLookup]
      by_cases hmt : (m == t) = true
      · rw [if_pos hmt, if_pos hmt]
      · rw [if_neg hmt, if_neg hmt]
        exact ih

theorem isSome_dictInsert_self (d : List (String × Bool)) (k : String) (v : Bool) :
    (dictLookup (dictInsert d k v) k).isSome = true := by
  unfold dictInsert
  by_cases hany : (d.any fun q => q.1 == k) = true
  · rw [if_pos hany, dictLookup_map_self hany]
    rfl
  · rw [if_neg hany]
    have hall : ∀ p ∈ d, (p.1 == k) = false :=
      (any_eq_false_iff d _).mp (Bool.eq_false_iff.mpr hany)
    rw [dictLookup_new_key hall]
    rfl

theorem isSome_dictInsert_mono {d : List (String × Bool)} {k t : String} {v : Bool}
    (h : (dictLookup d t).isSome = true) :
    (dictLookup (dictInsert d k v) t).isSome = true := by
  unfold dictInsert
  by_cases hany : (d.any fun q => q.1 == k) = true
  · rw [if_pos hany, dictLookup_map_isSome]
    exact h
  · rw [if_neg hany]
    obtain ⟨b, hb⟩ := Option.isSome_iff_exists.mp h
    rw [dictLookup_append_left hb]
    rfl

theorem statusLoop_lookup (s : RegState) :
    ∀ (ts : List String) (d : List (String × Bool)) (t : String),
      (∀ p ∈ d, p.2 = is_blocked s p.1) →
      (t ∈ ts ∨ (dictLookup d t).isSome = true) →
      dictLookup (statusLoop s d ts) t = some (is_blocked s t) := by
  intro ts
  induction ts with
  | nil =>
    intro d t hinv hmem
    rcases hmem with h | h
    · simp at h
    · simp only [statusLoop]
      obtain ⟨b, hb⟩ := Option.isSome_iff_exists.mp h
      have hmem2 := dictLookup_mem hb
      have hbt := hinv _ hmem2
      simp only at hbt
      rw [hb, hbt]
  | cons exe rest ih =>
    intro d t hinv hmem
    simp only [statusLoop]
    apply ih
    · exact dictInsert_entries hinv
    · rcases hmem with h | h
      · rcases List.mem_cons.mp h with rfl | h2
        · right
          exact isSome_dictInsert_self d t (is_blocked s t)
        · left; exact h2
      · right; exact isSome_dictInsert_mono h

theorem statusLoop_entries (s : RegState) :
    ∀ (ts : List String) (d : List (String × Bool)),
      (∀ p ∈ d, p.2 = is_blocked s p.1) →
      ∀ p ∈ statusLoop s d ts, p.2 = is_blocked s p.1 := by
  intro ts
  induction ts with
  | nil =>
    intro d h
    simpa [statusLoop] using h
  | cons exe rest ih =>
    intro d h
    exact ih _ (dictInsert_entries h)

theorem statusLoop_fst (s : RegState) :
    ∀ (ts : List String) (d : List (String × Bool)),
      ∀ p ∈ statusLoop s d ts, (∃ q ∈ d, p.1 = q.1) ∨ p.1 ∈ ts := by
  intro ts
  induction ts with
  | nil =>
    intro d p hp
    exact Or.inl ⟨p, by simpa [statusLoop] using hp, rfl⟩
  | cons exe rest ih =>
    intro d p hp
    simp only [statusLoop] at hp
    rcases ih _ p hp with ⟨q, hq, he⟩ | h
    · rcases dictInsert_fst hq with h1 | ⟨q2, hq2, he2⟩
      · right
        rw [List.mem_cons]
        left
        rw [he, h1]
      · left; exact ⟨q2, hq2, by rw [he, he2]⟩
    · right; exact List.mem_cons_of_mem _ h

/-- C9: blockedCount equals the number of listed targets whose entry in
the status dict is true, isAnyBlocked is true exactly when some status
entry is true, and on the empty list the count is zero and the flag
false. -/
theorem status_count_any_consistent :
    ∀ (s : RegState) (ts : List String),
      get_blocked_count s ts
        = (ts.filter fun t => dictLookup (get_status s ts) t == some true).length ∧
      (is_any_blocked s ts = true ↔ ∃ p ∈ get_status s ts, p.2 = true) ∧
      get_blocked_count s [] = 0 ∧ is_any_blocked s [] = false := by
  intro s ts
  have hlook : ∀ t ∈ ts, dictLookup (get_status s ts) t = some (is_blocked s t) :=
    fun t ht => statusLoop_lookup s ts [] t (by simp) (Or.inl ht)
  refine ⟨?_, ⟨?_, ?_⟩, rfl, rfl⟩
  · unfold get_blocked_count
    congr 1
    apply list_filter_congr
    intro t ht
    rw [hlook t ht]
    cases hb : is_blocked s t <;> simp
  · intro h
    unfold is_any_blocked at h
    rw [List.any_eq_true] at h
    obtain ⟨t, ht, hbt⟩ := h
    refine ⟨(t, true), ?_, rfl⟩
    have hlt := hlook t ht
    rw [hbt] at hlt
    exact dictLookup_mem hlt
  · rintro ⟨p, hp, hp2⟩
    have hinv := statusLoop_entries s ts [] (by simp) p hp
    have hfst := statusLoop_fst s ts [] p hp
    rcases hfst with ⟨q, hq, _⟩ | hmem
    · simp at hq
    · unfold is_any_blocked
      rw [List.any_eq_true]
      refine ⟨p.1, hmem, ?_⟩
      rw [← hinv]
      exact hp2
